import Mathlib

set_option maxHeartbeats 2000000
set_option maxRecDepth 4000

/-!
Shallow embedding of the rs-txtar crate (src/lib.rs) and verification of the
specification's claims about it.  Text is modelled as `List Char`; the byte
indices used by the Rust code all fall on ASCII character boundaries at the
points where they are taken, so character indexing is faithful (see the
comment on `parse_leading_marker`).
-/

namespace Txtar

/-- Unicode code points with the White_Space property, the predicate tested by
the Rust standard library's char::is_whitespace, which str::trim removes. -/
def rustWhitespace (c : Char) : Bool :=
  decide ((0x9 ≤ c.toNat ∧ c.toNat ≤ 0xD) ∨ c.toNat = 0x20 ∨ c.toNat = 0x85 ∨
    c.toNat = 0xA0 ∨ c.toNat = 0x1680 ∨ (0x2000 ≤ c.toNat ∧ c.toNat ≤ 0x200A) ∨
    c.toNat = 0x2028 ∨ c.toNat = 0x2029 ∨ c.toNat = 0x202F ∨ c.toNat = 0x205F ∨
    c.toNat = 0x3000)

/-- str::trim: remove leading and trailing White_Space characters. -/
def trim (s : List Char) : List Char :=
  ((s.dropWhile rustWhitespace).reverse.dropWhile rustWhitespace).reverse

/-- const MARKER: &str = "-- "; -/
def MARKER : List Char := ['-', '-', ' ']

/-- const NEWLINE_MARKER: &str = "\n-- "; -/
def NEWLINE_MARKER : List Char := ['\n', '-', '-', ' ']

/-- const MARKER_END: &str = " --"; -/
def MARKER_END : List Char := [' ', '-', '-']

/-- str::split_once('\n'): split at the first newline, none when absent. -/
def splitOnceNL : List Char → Option (List Char × List Char)
  | [] => none
  | c :: t =>
    if c = '\n' then some ([], t)
    else (splitOnceNL t).map (fun p => (c :: p.1, p.2))

/-- The carriage-return stripping step of parse_leading_marker: when the line
ends with a CR, drop that final byte, mirroring data = data[0..len-1]. -/
def stripCR (data : List Char) : List Char :=
  if data.getLast? = some '\r' then data.dropLast else data

/-- fn parse_leading_marker(s: &str) -> (&str, &str).
The Rust code compares byte lengths; the length test is only reached when
`data` starts with the three ASCII bytes "-- " and ends with the three ASCII
bytes " --", and for such strings the byte length is at most 6 exactly when
the character length is, so the character-level test below is faithful.  The
slices data[0..len-1] and data[3..len-3] taken by the code fall on character
boundaries for the same reason. -/
def parse_leading_marker (s : List Char) : List Char × List Char :=
  if MARKER.isPrefixOf s then
    let pr := match splitOnceNL s with
      | none => (s, [])
      | some p => p
    let data := stripCR pr.1
    if MARKER_END.isSuffixOf data ∧ MARKER.length + MARKER_END.length < data.length then
      (trim ((data.drop MARKER.length).take
        (data.length - (MARKER.length + MARKER_END.length))), pr.2)
    else ([], [])
  else ([], [])

/-- str::find for a literal pattern: index of the first occurrence. -/
def findSub (pat : List Char) : List Char → Option Nat
  | [] => if pat.isPrefixOf ([] : List Char) then some 0 else none
  | c :: t => if pat.isPrefixOf (c :: t) then some 0 else (findSub pat t).map (· + 1)

/-- Termination support: an occurrence reported by findSub fits inside the
searched text. -/
theorem findSub_bound (pat : List Char) :
    ∀ (s : List Char) (i : Nat), findSub pat s = some i → i + pat.length ≤ s.length := by
  intro s
  induction s with
  | nil =>
    intro i h
    simp only [findSub] at h
    split at h
    · rename_i hp
      have hpat : pat = [] := by
        cases pat with
        | nil => rfl
        | cons a t => simp [List.isPrefixOf] at hp
      cases h
      simp [hpat]
    · cases h
  | cons c t ih =>
    intro i h
    simp only [findSub] at h
    split at h
    · rename_i hp
      cases h
      have := List.isPrefixOf_iff_prefix.mp hp
      simpa using this.length_le
    · rcases Option.map_eq_some'.mp h with ⟨j, hj, rfl⟩
      have := ih j hj
      simp only [List.length_cons]
      omega

/-- The scan loop inside fn find_next_marker, with the current offset `i`
represented by the suffix `s` of the original text: returns the offset of the
first valid marker line together with its parsed file name and the text after
the marker line, or none when the loop runs out of newline-marker candidates. -/
def fnmGo (s : List Char) : Option (Nat × List Char × List Char) :=
  if (parse_leading_marker s).1 ≠ [] then
    some (0, (parse_leading_marker s).1, (parse_leading_marker s).2)
  else
    match h : findSub NEWLINE_MARKER s with
    | some idx => (fnmGo (s.drop (idx + 1))).map (fun q => (idx + 1 + q.1, q.2))
    | none => none
termination_by s.length
decreasing_by
  have hb := findSub_bound NEWLINE_MARKER s idx h
  simp only [NEWLINE_MARKER, List.length_cons, List.length_nil] at hb
  simp only [List.length_drop]
  omega

/-- fn find_next_marker(s: &str) -> (&str, &str, &str): either
(s[0..i], name, after) for the first valid marker, or (s, "", ""). -/
def find_next_marker (s : List Char) : List Char × List Char × List Char :=
  match fnmGo s with
  | some q => (s.take q.1, q.2.1, q.2.2)
  | none => (s, [], [])

/-- fn fix_newline(s: &str) -> String. -/
def fix_newline (s : List Char) : List Char :=
  if s ≠ [] ∧ s.getLast? ≠ some '\n' then s ++ ['\n'] else s

/-- A file that resides in a txtar Archive. -/
structure File where
  name : List Char
  content : List Char
deriving DecidableEq

/-- A txtar archive. -/
structure Archive where
  comment : List Char
  files : List File
deriving DecidableEq

theorem splitOnceNL_some :
    ∀ (s a b : List Char), splitOnceNL s = some (a, b) → s = a ++ '\n' :: b ∧ '\n' ∉ a := by
  intro s
  induction s with
  | nil => intro a b h; simp [splitOnceNL] at h
  | cons c t ih =>
    intro a b h
    simp only [splitOnceNL] at h
    split at h
    · rename_i hc
      simp only [Option.some.injEq, Prod.mk.injEq] at h
      obtain ⟨rfl, rfl⟩ := h
      subst hc
      simp
    · rename_i hc
      rcases Option.map_eq_some'.mp h with ⟨⟨a1, b1⟩, h1, h2⟩
      simp only [Prod.mk.injEq] at h2
      obtain ⟨rfl, rfl⟩ := h2
      obtain ⟨rfl, hna⟩ := ih a1 b1 h1
      constructor
      · simp
      · simp only [List.mem_cons, not_or]
        exact ⟨fun hcn => hc hcn.symm, hna⟩

theorem splitOnceNL_none : ∀ (s : List Char), splitOnceNL s = none ↔ '\n' ∉ s := by
  intro s
  induction s with
  | nil => simp [splitOnceNL]
  | cons c t ih =>
    simp only [splitOnceNL]
    split
    · rename_i hc; subst hc; simp
    · rename_i hc
      rw [Option.map_eq_none', ih]
      simp only [List.mem_cons, not_or]
      constructor
      · intro h; exact ⟨fun hcn => hc hcn.symm, h⟩
      · intro h; exact h.2

theorem marker_pre_ne_nil {s : List Char} (hpf : MARKER.isPrefixOf s) : s ≠ [] := by
  intro hnil
  subst hnil
  simp [MARKER, List.isPrefixOf] at hpf

theorem plm_not_pre {s : List Char} (hpf : ¬ MARKER.isPrefixOf s) :
    parse_leading_marker s = ([], []) := by
  simp [parse_leading_marker, hpf]

theorem plm_split_none {s : List Char} (hpf : MARKER.isPrefixOf s)
    (hso : splitOnceNL s = none) :
    parse_leading_marker s =
      (if MARKER_END.isSuffixOf (stripCR s) ∧
          MARKER.length + MARKER_END.length < (stripCR s).length then
        (trim (((stripCR s).drop MARKER.length).take
          ((stripCR s).length - (MARKER.length + MARKER_END.length))), ([] : List Char))
      else ([], [])) := by
  simp [parse_leading_marker, hpf, hso]

theorem plm_split_some {s a b : List Char} (hpf : MARKER.isPrefixOf s)
    (hso : splitOnceNL s = some (a, b)) :
    parse_leading_marker s =
      (if MARKER_END.isSuffixOf (stripCR a) ∧
          MARKER.length + MARKER_END.length < (stripCR a).length then
        (trim (((stripCR a).drop MARKER.length).take
          ((stripCR a).length - (MARKER.length + MARKER_END.length))), b)
      else ([], [])) := by
  simp [parse_leading_marker, hpf, hso]

/-- Termination support: a successful parse of a leading marker strictly
consumes the marker line. -/
theorem plm_shrink {s : List Char} (h : (parse_leading_marker s).1 ≠ []) :
    (parse_leading_marker s).2.length < s.length := by
  by_cases hpf : MARKER.isPrefixOf s
  · rcases hso : splitOnceNL s with _ | ⟨a, b⟩
    · rw [plm_split_none hpf hso] at h ⊢
      by_cases hcond : MARKER_END.isSuffixOf (stripCR s) ∧
          MARKER.length + MARKER_END.length < (stripCR s).length
      · rw [if_pos hcond]
        simpa using List.length_pos.mpr (marker_pre_ne_nil hpf)
      · rw [if_neg hcond] at h
        simp at h
    · obtain ⟨rfl, hna⟩ := splitOnceNL_some s a b hso
      rw [plm_split_some hpf hso] at h ⊢
      by_cases hcond : MARKER_END.isSuffixOf (stripCR a) ∧
          MARKER.length + MARKER_END.length < (stripCR a).length
      · rw [if_pos hcond]
        simp only [List.length_append, List.length_cons]
        omega
      · rw [if_neg hcond] at h
        simp at h
  · rw [plm_not_pre hpf] at h
    simp at h

/-- Termination support: the scan loop only succeeds with a nonempty name and
a strictly shorter remainder. -/
theorem fnmGo_some_shrink :
    ∀ (N : Nat) (s : List Char), s.length ≤ N →
      ∀ i n a, fnmGo s = some (i, n, a) → n ≠ [] ∧ a.length < s.length := by
  intro N
  induction N with
  | zero =>
    intro s hs i n a h
    have hnil : s = [] := List.length_eq_zero.mp (Nat.le_antisymm hs (Nat.zero_le _))
    subst hnil
    rw [fnmGo] at h
    simp [parse_leading_marker, MARKER, List.isPrefixOf, findSub, NEWLINE_MARKER] at h
  | succ N ih =>
    intro s hs i n a h
    rw [fnmGo] at h
    split at h
    · rename_i hne
      simp only [Option.some.injEq, Prod.mk.injEq] at h
      obtain ⟨rfl, rfl, rfl⟩ := h
      exact ⟨hne, plm_shrink hne⟩
    · split at h
      · rename_i idx hfs
        rcases Option.map_eq_some'.mp h with ⟨⟨j, n1, a1⟩, hj, hq⟩
        simp only [Prod.mk.injEq] at hq
        obtain ⟨rfl, rfl, rfl⟩ := hq
        have hb := findSub_bound NEWLINE_MARKER s idx hfs
        simp only [NEWLINE_MARKER, List.length_cons, List.length_nil] at hb
        have hlen : (s.drop (idx + 1)).length ≤ N := by
          simp only [List.length_drop]
          omega
        have := ih (s.drop (idx + 1)) hlen j n1 a1 hj
        refine ⟨this.1, ?_⟩
        have h2 := this.2
        simp only [List.length_drop] at h2
        omega
      · cases h

theorem fnmGo_shrink {s : List Char} {i : Nat} {n a : List Char}
    (h : fnmGo s = some (i, n, a)) : n ≠ [] ∧ a.length < s.length :=
  fnmGo_some_shrink s.length s le_rfl i n a h

/-- The while loop of impl From<&str> for Archive: given the current
file_name and the remaining text after, produce the list of files. -/
def fromLoop (file_name after : List Char) : List File :=
  if file_name = [] then []
  else
    { name := file_name, content := fix_newline (find_next_marker after).1 } ::
      fromLoop (find_next_marker after).2.1 (find_next_marker after).2.2
termination_by after.length + (if file_name = [] then 0 else 1)
decreasing_by
  rename_i hfn
  rcases hq : fnmGo after with _ | ⟨i, n, a⟩
  · simp [find_next_marker, hq, hfn]
  · have hs := fnmGo_shrink hq
    simp [find_next_marker, hq, hfn, hs.1]
    omega

/-- impl From<&str> for Archive: fn from(value: &str) -> Self. -/
def archiveFrom (value : List Char) : Archive :=
  { comment := (find_next_marker value).1,
    files := fromLoop (find_next_marker value).2.1 (find_next_marker value).2.2 }

/-- Archive::contains. -/
def Archive.contains (self : Archive) (name : List Char) : Bool :=
  self.files.any (fun f => f.name == name)

/-- Archive::get. -/
def Archive.get (self : Archive) (name : List Char) : Option File :=
  self.files.find? (fun f => f.name == name)

/-- impl std::ops::Index<&str> for Archive: the panic on a missing file is
modelled as none, a returned reference as some. -/
def Archive.indexGet (self : Archive) (index : List Char) : Option File :=
  match self.files.find? (fun f => f.name == index) with
  | some f => some f
  | none => none

/-- Model of std::io::Error values. -/
structure IoError where
  code : Nat
deriving DecidableEq

/-- Archive::read: reader.read_to_string(&mut s)? then parse.  The reader is
modelled by the outcome of its read_to_string call: either an error or the
complete decoded text. -/
def Archive.read (reader : Except IoError (List Char)) : Except IoError Archive :=
  match reader with
  | .error e => .error e
  | .ok s => .ok (archiveFrom s)

/-- Archive::from_file: std::fs::File::open(path)? then Archive::read.  The
open call is modelled by its outcome: an error, or the reader it produces. -/
def Archive.from_file (opened : Except IoError (Except IoError (List Char))) :
    Except IoError Archive :=
  match opened with
  | .error e => .error e
  | .ok reader => Archive.read reader

/-- Fuel-bounded version of the scan loop of find_next_marker, mirroring its
iterations one for one; none means the fuel ran out before the loop exited. -/
def fnmGoFuel : Nat → List Char → Option (Option (Nat × List Char × List Char))
  | 0, _ => none
  | fuel + 1, s =>
    if (parse_leading_marker s).1 ≠ [] then
      some (some (0, (parse_leading_marker s).1, (parse_leading_marker s).2))
    else
      match findSub NEWLINE_MARKER s with
      | some idx =>
        (fnmGoFuel fuel (s.drop (idx + 1))).map
          (Option.map (fun q => (idx + 1 + q.1, q.2)))
      | none => some none

/-- Executable form of find_next_marker, running the scan loop with enough
fuel for any input. -/
def findNextMarkerFuel (s : List Char) : List Char × List Char × List Char :=
  match fnmGoFuel (s.length + 1) s with
  | some (some q) => (s.take q.1, q.2.1, q.2.2)
  | _ => (s, [], [])

/-- Fuel-bounded version of the builder loop of impl From<&str> for Archive. -/
def fromLoopFuel : Nat → List Char → List Char → Option (List File)
  | 0, _, _ => none
  | fuel + 1, file_name, after =>
    if file_name = [] then some []
    else
      (fromLoopFuel fuel (findNextMarkerFuel after).2.1 (findNextMarkerFuel after).2.2).map
        (fun fs =>
          { name := file_name,
            content := fix_newline (findNextMarkerFuel after).1 } :: fs)

/-- Fuel-bounded, executable version of Archive::from. -/
def archiveFromFuel (fuel : Nat) (value : List Char) : Option Archive :=
  (fromLoopFuel fuel (findNextMarkerFuel value).2.1 (findNextMarkerFuel value).2.2).map
    (fun fs => { comment := (findNextMarkerFuel value).1, files := fs })

/-- The lines of a text: the segments separated by newline characters
(a trailing newline yields a final empty line). -/
def linesOf : List Char → List (List Char)
  | [] => [[]]
  | c :: t =>
    if c = '\n' then [] :: linesOf t
    else
      match linesOf t with
      | [] => [[c]]
      | l :: ls => (c :: l) :: ls

/-- The first line of a text (everything before the first newline, or the
whole text when it has no newline): exactly the `data` slice examined by
parse_leading_marker. -/
def firstLineOf (s : List Char) : List Char :=
  match splitOnceNL s with
  | none => s
  | some p => p.1

/-- Everything after the first newline of a text (empty when it has none):
exactly the `after` slice returned with a successful leading marker. -/
def lineRestOf (s : List Char) : List Char :=
  match splitOnceNL s with
  | none => []
  | some p => p.2

/-- A line has marker syntax: it passes the starts-with, ends-with and length
checks of parse_leading_marker (its trimmed name may still be empty). -/
def isMarkerSyntax (data : List Char) : Prop :=
  MARKER.isPrefixOf data = true ∧ MARKER_END.isSuffixOf (stripCR data) = true ∧
    MARKER.length + MARKER_END.length < (stripCR data).length

instance (data : List Char) : Decidable (isMarkerSyntax data) := by
  unfold isMarkerSyntax
  infer_instance

/-- The trimmed name a marker-syntax line carries. -/
def markerName (data : List Char) : List Char :=
  trim (((stripCR data).drop MARKER.length).take
    ((stripCR data).length - (MARKER.length + MARKER_END.length)))

/-- A line the scanner accepts as a marker: marker syntax and a nonempty
trimmed name. -/
def isMarkerLine (data : List Char) : Prop :=
  isMarkerSyntax data ∧ markerName data ≠ []

instance (data : List Char) : Decidable (isMarkerLine data) := by
  unfold isMarkerLine
  infer_instance

/-- No line of the text is accepted by the scanner as a marker line. -/
def noMarkerLine (s : List Char) : Prop :=
  ∀ l ∈ linesOf s, ¬ isMarkerLine l

instance (s : List Char) : Decidable (noMarkerLine s) := by
  unfold noMarkerLine
  infer_instance

/-- The rendering of one file used by the round-trip property: the marker
line "-- name --", a newline, then the content. -/
def renderFile (p : List Char × List Char) : List Char :=
  MARKER ++ p.1 ++ MARKER_END ++ '\n' :: p.2

/-- The rendering of a whole archive used by the round-trip property. -/
def render (comment : List Char) (fs : List (List Char × List Char)) : List Char :=
  comment ++ (fs.map renderFile).flatten

/-! ### Helper lemmas about trimming -/

theorem dropWhile_head_not {α : Type} {p : α → Bool} {l : List α} {x : α} {t : List α}
    (h : l.dropWhile p = x :: t) : p x = false := by
  have hh := List.head?_dropWhile_not p l
  rw [h] at hh
  simpa using hh

theorem dropWhile_eq_self_of_head {α : Type} {p : α → Bool} {l : List α}
    (h : ∀ x t, l = x :: t → p x = false) : l.dropWhile p = l := by
  cases l with
  | nil => rfl
  | cons x t =>
    rw [List.dropWhile_cons, h x t rfl]
    simp

theorem dropWhile_idem {α : Type} (p : α → Bool) (l : List α) :
    (l.dropWhile p).dropWhile p = l.dropWhile p := by
  rcases h : l.dropWhile p with _ | ⟨x, t⟩
  · rfl
  · rw [List.dropWhile_cons, dropWhile_head_not h]
    simp

theorem trim_idem (s : List Char) : trim (trim s) = trim s := by
  have hb : trim s = ((s.dropWhile rustWhitespace).reverse.dropWhile rustWhitespace).reverse :=
    rfl
  have hdwrev :
      (trim s).dropWhile rustWhitespace = trim s := by
    apply dropWhile_eq_self_of_head
    intro x t hxt
    have hpre : x :: t <+: s.dropWhile rustWhitespace := by
      have hsuf : (s.dropWhile rustWhitespace).reverse.dropWhile rustWhitespace <:+
          (s.dropWhile rustWhitespace).reverse := List.dropWhile_suffix _
      have hp := List.reverse_prefix.mpr hsuf
      rw [List.reverse_reverse] at hp
      rw [← hxt, hb]
      exact hp
    rcases hpre with ⟨w, hw⟩
    exact dropWhile_head_not (l := s) (by rw [← hw]; rfl)
  show ((((trim s).dropWhile rustWhitespace).reverse).dropWhile rustWhitespace).reverse = trim s
  rw [hdwrev, hb, List.reverse_reverse, dropWhile_idem, ← hb]

theorem trim_eq_nil_of_all {m : List Char} (h : ∀ x ∈ m, rustWhitespace x = true) :
    trim m = [] := by
  unfold trim
  rw [List.dropWhile_eq_nil_iff.mpr h]
  simp

theorem trim_nil : trim [] = [] := rfl

theorem trim_ne_nil_arg {m : List Char} (h : trim m ≠ []) : m ≠ [] := by
  intro hm
  subst hm
  exact h trim_nil

/-! ### Helper lemmas about prefixes, lines and splitting -/

theorem prefix_of_append_cons {pat a b : List Char} {c : Char}
    (hc : c ∉ pat) (h : pat <+: a ++ c :: b) : pat <+: a := by
  induction pat generalizing a with
  | nil => exact List.nil_prefix
  | cons x xs ih =>
    cases a with
    | nil =>
      rcases h with ⟨w, hw⟩
      simp only [List.nil_append, List.cons_append, List.cons.injEq] at hw
      exact absurd (hw.1 ▸ List.mem_cons_self x xs) hc
    | cons y ys =>
      rcases h with ⟨w, hw⟩
      simp only [List.cons_append, List.cons.injEq] at hw
      obtain ⟨rfl, hw2⟩ := hw
      have hxs : xs <+: ys ++ c :: b := ⟨w, hw2⟩
      have hcxs : c ∉ xs := fun hm => hc (List.mem_cons_of_mem _ hm)
      rcases ih hcxs hxs with ⟨w2, hw3⟩
      exact ⟨w2, by simp [hw3]⟩

theorem isPrefixOf_firstLine {pat s : List Char} (hpat : '\n' ∉ pat) :
    pat.isPrefixOf (firstLineOf s) = pat.isPrefixOf s := by
  rcases hso : splitOnceNL s with _ | ⟨a, b⟩
  · simp [firstLineOf, hso]
  · obtain ⟨rfl, hna⟩ := splitOnceNL_some s a b hso
    simp only [firstLineOf, hso]
    rw [← Bool.coe_iff_coe]
    simp only [ List.isPrefixOf_iff_prefix]
    constructor
    · intro h
      exact h.trans (List.prefix_append _ _)
    · intro h
      exact prefix_of_append_cons hpat h

theorem splitOnceNL_append {a : List Char} (b : List Char) (hna : '\n' ∉ a) :
    splitOnceNL (a ++ '\n' :: b) = some (a, b) := by
  induction a with
  | nil => simp [splitOnceNL]
  | cons c t ih =>
    have hc : ¬ c = '\n' := fun h => hna (by simp [h])
    have hnt : '\n' ∉ t := fun h => hna (List.mem_cons_of_mem _ h)
    simp only [List.cons_append, splitOnceNL, hc, if_false, List.append_eq, ih hnt,
      Option.map_some']

theorem firstLineOf_append {c : List Char} (t : List Char) (h : '\n' ∈ c) :
    firstLineOf (c ++ t) = firstLineOf c ∧ lineRestOf (c ++ t) = lineRestOf c ++ t := by
  rcases hso : splitOnceNL c with _ | ⟨a, b⟩
  · exact absurd h ((splitOnceNL_none c).mp hso)
  · obtain ⟨rfl, hna⟩ := splitOnceNL_some c a b hso
    have hre : (a ++ '\n' :: b) ++ t = a ++ '\n' :: (b ++ t) := by simp
    rw [hre]
    simp [firstLineOf, lineRestOf, hso, splitOnceNL_append (b ++ t) hna]

theorem linesOf_append {a : List Char} (b : List Char) (hna : '\n' ∉ a) :
    linesOf (a ++ '\n' :: b) = a :: linesOf b := by
  induction a with
  | nil => simp [linesOf]
  | cons c t ih =>
    have hc : ¬ c = '\n' := fun h => hna (by simp [h])
    have hnt : '\n' ∉ t := fun h => hna (List.mem_cons_of_mem _ h)
    simp only [List.cons_append, linesOf, hc, if_false, List.append_eq, ih hnt]

theorem linesOf_no_nl {s : List Char} (h : '\n' ∉ s) : linesOf s = [s] := by
  induction s with
  | nil => rfl
  | cons c t ih =>
    have hc : ¬ c = '\n' := fun hcn => h (by simp [hcn])
    have hnt : '\n' ∉ t := fun hm => h (List.mem_cons_of_mem _ hm)
    simp only [linesOf, hc, if_false, ih hnt]

theorem firstLineOf_mem (s : List Char) : firstLineOf s ∈ linesOf s := by
  rcases hso : splitOnceNL s with _ | ⟨a, b⟩
  · simp [firstLineOf, hso, linesOf_no_nl ((splitOnceNL_none s).mp hso)]
  · obtain ⟨rfl, hna⟩ := splitOnceNL_some s a b hso
    simp [firstLineOf, hso, linesOf_append _ hna]

theorem linesOf_drop_mem :
    ∀ (N : Nat) (s : List Char), s.length ≤ N → ∀ (p : Nat), s[p]? = some '\n' →
      ∀ l ∈ linesOf (s.drop (p + 1)), l ∈ linesOf s := by
  intro N
  induction N with
  | zero =>
    intro s hs p hp
    have : s = [] := List.length_eq_zero.mp (Nat.le_antisymm hs (Nat.zero_le _))
    subst this
    simp at hp
  | succ N ih =>
    intro s hs p hp l hl
    rcases hso : splitOnceNL s with _ | ⟨a, b⟩
    · exact absurd (List.getElem?_mem hp) ((splitOnceNL_none s).mp hso)
    · obtain ⟨rfl, hna⟩ := splitOnceNL_some s a b hso
      rcases Nat.lt_trichotomy p a.length with hpk | hpk | hpk
      · rw [List.getElem?_append_left hpk] at hp
        exact absurd (List.getElem?_mem hp) hna
      · have hdrop : (a ++ '\n' :: b).drop (p + 1) = b := by
          have : a ++ '\n' :: b = (a ++ ['\n']) ++ b := by simp
          rw [this]
          exact List.drop_left' (by simp [hpk])
        rw [hdrop] at hl
        rw [linesOf_append _ hna]
        exact List.mem_cons_of_mem _ hl
      · have hke : a.length + (p - a.length) = p := by omega
        have hdrop : (a ++ '\n' :: b).drop (p + 1) = b.drop (p - a.length) := by
          have h1 : a ++ '\n' :: b = (a ++ ['\n']) ++ b := by simp
          have h2 : (a ++ ['\n']).length + (p - a.length) = p + 1 := by
            simp only [List.length_append, List.length_cons, List.length_nil]
            omega
          rw [h1, ← h2]
          exact List.drop_append _
        have hp2 : b[p - a.length - 1]? = some '\n' := by
          have := @List.getElem?_append_right Char a ('\n' :: b) p (by omega)
          rw [this] at hp
          have hcons : ('\n' :: b)[p - a.length]? = b[p - a.length - 1]? := by
            rcases hne : p - a.length with _ | m
            · omega
            · simp [hne]
          rw [hcons] at hp
          exact hp
        have hrw : b.drop (p - a.length) = b.drop (p - a.length - 1 + 1) := by
          congr 1
          omega
        rw [hdrop, hrw] at hl
        have hblen : b.length ≤ N := by
          simp only [List.length_append, List.length_cons] at hs
          omega
        have := ih b hblen (p - a.length - 1) hp2 l hl
        rw [linesOf_append _ hna]
        exact List.mem_cons_of_mem _ this

theorem noMarkerLine_drop {s : List Char} {p : Nat} (hs : noMarkerLine s)
    (hp : s[p]? = some '\n') : noMarkerLine (s.drop (p + 1)) := by
  intro l hl
  exact hs l (linesOf_drop_mem s.length s le_rfl p hp l hl)

/-! ### Characterization of parse_leading_marker by the first line -/

theorem plm_spec (s : List Char) :
    parse_leading_marker s =
      if isMarkerSyntax (firstLineOf s) then (markerName (firstLineOf s), lineRestOf s)
      else ([], []) := by
  by_cases hpf : MARKER.isPrefixOf s
  · rcases hso : splitOnceNL s with _ | ⟨a, b⟩
    · have hfl : firstLineOf s = s := by simp [firstLineOf, hso]
      have hlr : lineRestOf s = [] := by simp [lineRestOf, hso]
      rw [plm_split_none hpf hso, hfl, hlr]
      by_cases hcond : MARKER_END.isSuffixOf (stripCR s) = true ∧
          MARKER.length + MARKER_END.length < (stripCR s).length
      · rw [if_pos hcond, if_pos ⟨hpf, hcond.1, hcond.2⟩]
        rfl
      · rw [if_neg hcond, if_neg (fun hms => hcond ⟨hms.2.1, hms.2.2⟩)]
    · obtain ⟨rfl, hna⟩ := splitOnceNL_some s a b hso
      have hfl : firstLineOf (a ++ '\n' :: b) = a := by simp [firstLineOf, hso]
      have hlr : lineRestOf (a ++ '\n' :: b) = b := by simp [lineRestOf, hso]
      have hpfa : MARKER.isPrefixOf a = true := by
        have := @isPrefixOf_firstLine MARKER (a ++ '\n' :: b) (by decide)
        rw [hfl] at this
        rw [this, hpf]
      rw [plm_split_some hpf hso, hfl, hlr]
      by_cases hcond : MARKER_END.isSuffixOf (stripCR a) = true ∧
          MARKER.length + MARKER_END.length < (stripCR a).length
      · rw [if_pos hcond, if_pos ⟨hpfa, hcond.1, hcond.2⟩]
        rfl
      · rw [if_neg hcond, if_neg (fun hms => hcond ⟨hms.2.1, hms.2.2⟩)]
  · rw [plm_not_pre hpf, if_neg]
    intro hms
    have := @isPrefixOf_firstLine MARKER s (by decide)
    rw [hms.1] at this
    exact hpf this.symm

theorem plm_of_markerSyntax {s : List Char} (h : isMarkerSyntax (firstLineOf s)) :
    parse_leading_marker s = (markerName (firstLineOf s), lineRestOf s) := by
  rw [plm_spec, if_pos h]

theorem plm_fst_ne_iff (s : List Char) :
    (parse_leading_marker s).1 ≠ [] ↔ isMarkerLine (firstLineOf s) := by
  rw [plm_spec]
  by_cases h : isMarkerSyntax (firstLineOf s)
  · rw [if_pos h]
    unfold isMarkerLine
    simp [h]
  · rw [if_neg h]
    unfold isMarkerLine
    simp [h]

theorem plm_name_trimmed (s : List Char) :
    trim (parse_leading_marker s).1 = (parse_leading_marker s).1 := by
  rw [plm_spec]
  by_cases h : isMarkerSyntax (firstLineOf s)
  · rw [if_pos h]
    exact trim_idem _
  · rw [if_neg h]
    exact trim_nil

/-- Parsing the rendered marker line of a nonempty name. -/
theorem parse_render {n : List Char} (r : List Char) (hnl : '\n' ∉ n) (hne : n ≠ []) :
    parse_leading_marker (MARKER ++ n ++ MARKER_END ++ '\n' :: r) = (trim n, r) := by
  have hdata_nl : '\n' ∉ MARKER ++ n ++ MARKER_END := by
    simp only [List.mem_append, not_or]
    exact ⟨⟨by decide, hnl⟩, by decide⟩
  have hso : splitOnceNL ((MARKER ++ n ++ MARKER_END) ++ '\n' :: r) =
      some (MARKER ++ n ++ MARKER_END, r) := splitOnceNL_append r hdata_nl
  have hre : MARKER ++ n ++ MARKER_END ++ '\n' :: r =
      (MARKER ++ n ++ MARKER_END) ++ '\n' :: r := by simp
  have hpf : MARKER.isPrefixOf ((MARKER ++ n ++ MARKER_END) ++ '\n' :: r) = true := by
    rw [ List.isPrefixOf_iff_prefix]
    exact ⟨n ++ MARKER_END ++ '\n' :: r, by simp⟩
  have hlast : (MARKER ++ n ++ MARKER_END).getLast? = some '-' := by
    rw [List.getLast?_append]
    rfl
  have hstrip : stripCR (MARKER ++ n ++ MARKER_END) = MARKER ++ n ++ MARKER_END := by
    unfold stripCR
    rw [hlast]
    simp
  have hlen : (MARKER ++ n ++ MARKER_END).length = n.length + 6 := by
    simp only [List.length_append, MARKER, MARKER_END, List.length_cons, List.length_nil]
    omega
  have hsfx : MARKER_END.isSuffixOf (stripCR (MARKER ++ n ++ MARKER_END)) = true := by
    rw [hstrip, List.isSuffixOf_iff_suffix]
    exact List.suffix_append _ _
  rw [hre, plm_split_some hpf hso, if_pos]
  · have hmid : ((stripCR (MARKER ++ n ++ MARKER_END)).drop MARKER.length).take
        ((stripCR (MARKER ++ n ++ MARKER_END)).length -
          (MARKER.length + MARKER_END.length)) = n := by
      rw [hstrip, hlen]
      have hassoc : MARKER ++ n ++ MARKER_END = MARKER ++ (n ++ MARKER_END) := by simp
      rw [hassoc, List.drop_left]
      have : n.length + 6 - (MARKER.length + MARKER_END.length) = n.length := by
        simp [MARKER, MARKER_END]
      rw [this, List.take_left]
    rw [hmid]
  · refine ⟨hsfx, ?_⟩
    rw [hstrip, hlen]
    simp only [MARKER, MARKER_END, List.length_cons, List.length_nil]
    have := List.length_pos.mpr hne
    omega

/-- Parsing the rendered marker line of the empty name: the length check
rejects it. -/
theorem parse_render_empty (r : List Char) :
    parse_leading_marker (MARKER ++ ([] : List Char) ++ MARKER_END ++ '\n' :: r) =
      ([], []) := by
  have hdata_nl : '\n' ∉ MARKER ++ ([] : List Char) ++ MARKER_END := by decide
  have hso : splitOnceNL ((MARKER ++ ([] : List Char) ++ MARKER_END) ++ '\n' :: r) =
      some (MARKER ++ ([] : List Char) ++ MARKER_END, r) := splitOnceNL_append r hdata_nl
  have hre : MARKER ++ ([] : List Char) ++ MARKER_END ++ '\n' :: r =
      (MARKER ++ ([] : List Char) ++ MARKER_END) ++ '\n' :: r := by simp
  have hpf : MARKER.isPrefixOf ((MARKER ++ ([] : List Char) ++ MARKER_END) ++ '\n' :: r) =
      true := by
    rw [ List.isPrefixOf_iff_prefix]
    exact ⟨([] : List Char) ++ MARKER_END ++ '\n' :: r, by simp⟩
  rw [hre, plm_split_some hpf hso, if_neg]
  intro hcond
  have := hcond.2
  revert this
  decide

/-! ### Soundness, minimality and completeness of findSub -/

theorem findSub_zero_of_starts {pat s : List Char} (h : pat <+: s) :
    findSub pat s = some 0 := by
  cases s with
  | nil =>
    have : pat = [] := List.prefix_nil.mp h
    subst this
    rfl
  | cons c t =>
    rw [findSub, if_pos ( List.isPrefixOf_iff_prefix.mpr h)]

theorem findSub_sound (pat : List Char) :
    ∀ (s : List Char) (p : Nat), findSub pat s = some p →
      ∃ u v, s = u ++ pat ++ v ∧ u.length = p := by
  intro s
  induction s with
  | nil =>
    intro p h
    rw [findSub] at h
    split at h
    · rename_i hp
      have hpat : pat = [] := by
        cases pat with
        | nil => rfl
        | cons a t => simp [List.isPrefixOf] at hp
      cases h
      exact ⟨[], [], by simp [hpat], rfl⟩
    · cases h
  | cons c t ih =>
    intro p h
    rw [findSub] at h
    split at h
    · rename_i hp
      cases h
      rcases List.isPrefixOf_iff_prefix.mp hp with ⟨w, hw⟩
      exact ⟨[], w, by simp [hw], rfl⟩
    · rcases Option.map_eq_some'.mp h with ⟨j, hj, rfl⟩
      rcases ih j hj with ⟨u, v, rfl, rfl⟩
      exact ⟨c :: u, v, by simp, by simp⟩

theorem findSub_min (pat : List Char) :
    ∀ (s : List Char) (p : Nat), findSub pat s = some p →
      ∀ u v, s = u ++ pat ++ v → p ≤ u.length := by
  intro s
  induction s with
  | nil =>
    intro p h u v hs
    rw [findSub] at h
    split at h
    · cases h
      exact Nat.zero_le _
    · cases h
  | cons c t ih =>
    intro p h u v hs
    rw [findSub] at h
    split at h
    · cases h
      exact Nat.zero_le _
    · rename_i hnp
      rcases Option.map_eq_some'.mp h with ⟨j, hj, rfl⟩
      cases u with
      | nil =>
        exfalso
        apply hnp
        rw [ List.isPrefixOf_iff_prefix]
        exact ⟨v, by simpa using hs.symm⟩
      | cons y u2 =>
        simp only [List.cons_append, List.cons.injEq] at hs
        have := ih j hj u2 v hs.2
        simp only [List.length_cons]
        omega

theorem findSub_exists (pat : List Char) :
    ∀ (u s v : List Char), s = u ++ pat ++ v → ∃ p, findSub pat s = some p := by
  intro u
  induction u with
  | nil =>
    intro s v hs
    refine ⟨0, findSub_zero_of_starts ?_⟩
    exact ⟨v, by simp [hs]⟩
  | cons y u2 ih =>
    intro s v hs
    subst hs
    rw [List.cons_append, List.cons_append, findSub]
    split
    · exact ⟨0, rfl⟩
    · rcases ih (u2 ++ pat ++ v) v rfl with ⟨p, hp⟩
      exact ⟨p + 1, by rw [hp]; rfl⟩

theorem getLast?_drop_of_lt {l : List Char} {k : Nat} (h : k < l.length) :
    (l.drop k).getLast? = l.getLast? := by
  conv_rhs => rw [← List.take_append_drop k l]
  rw [List.getLast?_append]
  rcases hd : (l.drop k).getLast? with _ | x
  · exfalso
    have : l.drop k = [] := List.getLast?_eq_none_iff.mp hd
    rw [List.drop_eq_nil_iff] at this
    omega
  · rfl

/-! ### The scan loop: positional soundness -/

theorem fnmGo_some_parse :
    ∀ (N : Nat) (s : List Char), s.length ≤ N → ∀ i n a, fnmGo s = some (i, n, a) →
      parse_leading_marker (s.drop i) = (n, a) ∧ (i = 0 ∨ s[i - 1]? = some '\n') := by
  intro N
  induction N with
  | zero =>
    intro s hs i n a h
    have hnil : s = [] := List.length_eq_zero.mp (Nat.le_antisymm hs (Nat.zero_le _))
    subst hnil
    rw [fnmGo] at h
    simp [parse_leading_marker, MARKER, List.isPrefixOf, findSub, NEWLINE_MARKER] at h
  | succ N ih =>
    intro s hs i n a h
    rw [fnmGo] at h
    split at h
    · rename_i hne
      simp only [Option.some.injEq, Prod.mk.injEq] at h
      obtain ⟨rfl, rfl, rfl⟩ := h
      exact ⟨by simp, Or.inl rfl⟩
    · split at h
      · rename_i idx hfs
        rcases Option.map_eq_some'.mp h with ⟨⟨j, n1, a1⟩, hj, hq⟩
        simp only [Prod.mk.injEq] at hq
        obtain ⟨rfl, rfl, rfl⟩ := hq
        have hb := findSub_bound NEWLINE_MARKER s idx hfs
        simp only [NEWLINE_MARKER, List.length_cons, List.length_nil] at hb
        have hlen : (s.drop (idx + 1)).length ≤ N := by
          simp only [List.length_drop]
          omega
        obtain ⟨hparse, hor⟩ := ih _ hlen j n1 a1 hj
        rw [List.drop_drop] at hparse
        refine ⟨by rw [← hparse], Or.inr ?_⟩
        rcases findSub_sound NEWLINE_MARKER s idx hfs with ⟨u, v, huv, hul⟩
        have huv2 : s = u ++ (NEWLINE_MARKER ++ v) := by rw [huv, List.append_assoc]
        have hnl_idx : s[idx]? = some '\n' := by
          rw [huv2, ← hul, List.getElem?_append_right (Nat.le_refl u.length)]
          simp [NEWLINE_MARKER]
        rcases hor with rfl | hnl2
        · simpa using hnl_idx
        · rcases Nat.eq_zero_or_pos j with rfl | hj1
          · simpa using hnl_idx
          · rw [List.getElem?_drop] at hnl2
            have harith : idx + 1 + j - 1 = idx + 1 + (j - 1) := by omega
            rw [harith]
            exact hnl2
      · cases h

theorem fnmGo_parse {s : List Char} {i : Nat} {n a : List Char}
    (h : fnmGo s = some (i, n, a)) :
    parse_leading_marker (s.drop i) = (n, a) ∧ (i = 0 ∨ s[i - 1]? = some '\n') :=
  fnmGo_some_parse s.length s le_rfl i n a h

/-! ### The scan loop on marker-free text -/

theorem fnmGo_clean_none :
    ∀ (N : Nat) (cs : List Char), cs.length ≤ N → noMarkerLine cs → fnmGo cs = none := by
  intro N
  induction N with
  | zero =>
    intro cs hc _
    have hnil : cs = [] := List.length_eq_zero.mp (Nat.le_antisymm hc (Nat.zero_le _))
    subst hnil
    rw [fnmGo, if_neg (by decide)]
    have hfs : findSub NEWLINE_MARKER [] = none := rfl
    rw [hfs]
  | succ N ih =>
    intro cs hc hnm
    have hp1 : (parse_leading_marker cs).1 = [] := by
      by_contra hne
      exact hnm _ (firstLineOf_mem cs) ((plm_fst_ne_iff cs).mp hne)
    rw [fnmGo, if_neg (fun hx => hx hp1)]
    rcases hfs : findSub NEWLINE_MARKER cs with _ | p0
    · rfl
    · have hb := findSub_bound NEWLINE_MARKER cs p0 hfs
      simp only [NEWLINE_MARKER, List.length_cons, List.length_nil] at hb
      rcases findSub_sound NEWLINE_MARKER cs p0 hfs with ⟨u, v, huv, hul⟩
      have huv2 : cs = u ++ (NEWLINE_MARKER ++ v) := by rw [huv, List.append_assoc]
      have hnlp : cs[p0]? = some '\n' := by
        rw [huv2, ← hul, List.getElem?_append_right (Nat.le_refl u.length)]
        simp [NEWLINE_MARKER]
      have hrec := ih (cs.drop (p0 + 1))
        (by simp only [List.length_drop]; omega)
        (noMarkerLine_drop hnm hnlp)
      show Option.map (fun q => (p0 + 1 + q.1, q.2)) (fnmGo (cs.drop (p0 + 1))) = none
      rw [hrec]
      rfl

theorem fnm_clean_none {c : List Char} (h : noMarkerLine c) :
    find_next_marker c = (c, [], []) := by
  unfold find_next_marker
  rw [fnmGo_clean_none c.length c le_rfl h]

/-! ### The scan loop on marker-free text followed by a marker -/

theorem fnmGo_clean_concat :
    ∀ (N : Nat) (c : List Char), c.length ≤ N → ∀ (t : List Char),
      noMarkerLine c → (c = [] ∨ c.getLast? = some '\n') →
      (parse_leading_marker t).1 ≠ [] →
      fnmGo (c ++ t) =
        some (c.length, (parse_leading_marker t).1, (parse_leading_marker t).2) := by
  intro N
  induction N with
  | zero =>
    intro c hc t _ _ hpt
    have hnil : c = [] := List.length_eq_zero.mp (Nat.le_antisymm hc (Nat.zero_le _))
    subst hnil
    simp only [List.nil_append, List.length_nil]
    rw [fnmGo, if_pos hpt]
  | succ N ih =>
    intro c hc t hnm hnl hpt
    rcases hnl with rfl | hlast
    · simp only [List.nil_append, List.length_nil]
      rw [fnmGo, if_pos hpt]
    · have hcne : c ≠ [] := by
        intro hnil
        rw [hnil] at hlast
        simp at hlast
      have hclen1 : 1 ≤ c.length := List.length_pos.mpr hcne
      rcases List.getLast?_eq_some_iff.mp hlast with ⟨c1, rfl⟩
      have hnlc : '\n' ∈ c1 ++ ['\n'] := by simp
      have hfl := (firstLineOf_append t hnlc).1
      have hp1 : (parse_leading_marker ((c1 ++ ['\n']) ++ t)).1 = [] := by
        by_contra hne
        have := (plm_fst_ne_iff _).mp hne
        rw [hfl] at this
        exact hnm _ (firstLineOf_mem _) this
      have hpf_t : MARKER.isPrefixOf t = true := by
        by_contra hnp
        rw [plm_not_pre (fun hx => hnp hx)] at hpt
        exact hpt rfl
      rcases List.isPrefixOf_iff_prefix.mp hpf_t with ⟨t0, ht0⟩
      have hdecomp : (c1 ++ ['\n']) ++ t = c1 ++ NEWLINE_MARKER ++ t0 := by
        rw [← ht0]
        simp only [NEWLINE_MARKER, MARKER, List.append_assoc, List.cons_append,
          List.nil_append, List.singleton_append]
      obtain ⟨p0, hp0⟩ := findSub_exists NEWLINE_MARKER c1 ((c1 ++ ['\n']) ++ t) t0 hdecomp
      have hmin := findSub_min NEWLINE_MARKER _ p0 hp0 c1 t0 hdecomp
      rw [fnmGo, if_neg (fun hx => hx hp1), hp0]
      rcases findSub_sound NEWLINE_MARKER _ p0 hp0 with ⟨u, v, huv, hul⟩
      have huv2 : (c1 ++ ['\n']) ++ t = u ++ (NEWLINE_MARKER ++ v) := by
        rw [huv, List.append_assoc]
      have hget : ∀ k, k < 4 → ((c1 ++ ['\n']) ++ t)[p0 + k]? = NEWLINE_MARKER[k]? := by
        intro k hk
        rw [huv2, ← hul, List.getElem?_append_right (Nat.le_add_right u.length k),
          Nat.add_sub_cancel_left,
          List.getElem?_append_left (by simpa [NEWLINE_MARKER] using hk)]
      rcases Nat.lt_or_ge p0 c1.length with hplt | hpge
      · -- the found newline lies strictly inside c1: recurse past it
        have hc1idx : ∀ j x, j < c1.length → c1[j]? = some x →
            ((c1 ++ ['\n']) ++ t)[j]? = some x := by
          intro j x hj hx
          rw [@List.getElem?_append_left Char (c1 ++ ['\n']) t j
            (by simp only [List.length_append, List.length_cons, List.length_nil]; omega),
            List.getElem?_append_left hj]
          exact hx
        have hclast : ((c1 ++ ['\n']) ++ t)[c1.length]? = some '\n' := by
          rw [@List.getElem?_append_left Char (c1 ++ ['\n']) t c1.length
            (by simp only [List.length_append, List.length_cons, List.length_nil]; omega)]
          rw [List.getElem?_append_right (Nat.le_refl c1.length)]
          simp
        have hne3 : ∀ k, 1 ≤ k → k ≤ 3 → p0 + k ≠ c1.length := by
          intro k h1 h3 heq
          have h4 := hget k (by omega)
          rw [heq, hclast] at h4
          interval_cases k <;> simp [NEWLINE_MARKER] at h4
        have hp4 : p0 + 4 ≤ c1.length := by
          have h1 := hne3 1 (by omega) (by omega)
          have h2 := hne3 2 (by omega) (by omega)
          have h3 := hne3 3 (by omega) (by omega)
          omega
        have hc : c1 ++ ['\n'] = (c1 ++ ['\n'] : List Char) := rfl
        have hdrop : ((c1 ++ ['\n']) ++ t).drop (p0 + 1) =
            ((c1 ++ ['\n']).drop (p0 + 1)) ++ t := by
          refine List.drop_append_of_le_length ?_
          simp only [List.length_append, List.length_cons, List.length_nil]
          omega
        have hlen2 : ((c1 ++ ['\n']).drop (p0 + 1)).length ≤ N := by
          simp only [List.length_drop, List.length_append, List.length_cons,
            List.length_nil] at *
          omega
        have hnlp0 : (c1 ++ ['\n'])[p0]? = some '\n' := by
          have h0 := hget 0 (by omega)
          simp only [Nat.add_zero] at h0
          rw [@List.getElem?_append_left Char (c1 ++ ['\n']) t p0
            (by simp only [List.length_append, List.length_cons, List.length_nil]; omega)] at h0
          rw [h0]
          rfl
        have hdlast : ((c1 ++ ['\n']).drop (p0 + 1)).getLast? = some '\n' := by
          rw [getLast?_drop_of_lt
            (by simp only [List.length_append, List.length_cons, List.length_nil]; omega)]
          simp
        have hrec := ih ((c1 ++ ['\n']).drop (p0 + 1)) hlen2 t
          (noMarkerLine_drop hnm hnlp0) (Or.inr hdlast) hpt
        show Option.map (fun q => (p0 + 1 + q.1, q.2))
            (fnmGo (((c1 ++ ['\n']) ++ t).drop (p0 + 1))) =
          some ((c1 ++ ['\n']).length, (parse_leading_marker t).1,
            (parse_leading_marker t).2)
        rw [hdrop, hrec]
        have harith : p0 + 1 + ((c1 ++ ['\n']).drop (p0 + 1)).length =
            (c1 ++ ['\n']).length := by
          simp only [List.length_drop, List.length_append, List.length_cons, List.length_nil]
          omega
        simp only [Option.map_some']
        rw [harith]
      · -- the found newline is the last character of the comment: the marker is next
        have hpeq : p0 = c1.length := Nat.le_antisymm hmin hpge
        have hdrop : ((c1 ++ ['\n']) ++ t).drop (p0 + 1) = t := by
          rw [hpeq]
          refine List.drop_left' ?_
          simp
        show Option.map (fun q => (p0 + 1 + q.1, q.2))
            (fnmGo (((c1 ++ ['\n']) ++ t).drop (p0 + 1))) =
          some ((c1 ++ ['\n']).length, (parse_leading_marker t).1,
            (parse_leading_marker t).2)
        rw [hdrop, fnmGo, if_pos hpt]
        simp only [Option.map_some']
        have harith : p0 + 1 + 0 = (c1 ++ ['\n']).length := by
          simp [hpeq]
        rw [harith]

theorem fnm_clean_concat {c t : List Char} (hnm : noMarkerLine c)
    (hnl : c = [] ∨ c.getLast? = some '\n') (hpt : (parse_leading_marker t).1 ≠ []) :
    find_next_marker (c ++ t) =
      (c, (parse_leading_marker t).1, (parse_leading_marker t).2) := by
  unfold find_next_marker
  rw [fnmGo_clean_concat c.length c le_rfl t hnm hnl hpt]
  show (List.take c.length (c ++ t), (parse_leading_marker t).1,
    (parse_leading_marker t).2) = (c, (parse_leading_marker t).1, (parse_leading_marker t).2)
  rw [List.take_left]

/-! ### Adequacy of the fuel-bounded mirrors -/

theorem fnmGoFuel_adequate :
    ∀ (fuel : Nat) (s : List Char), s.length < fuel →
      fnmGoFuel fuel s = some (fnmGo s) := by
  intro fuel
  induction fuel with
  | zero =>
    intro s hs
    exact absurd hs (Nat.not_lt_zero _)
  | succ fuel ih =>
    intro s hs
    rw [fnmGo]
    simp only [fnmGoFuel]
    by_cases hp : (parse_leading_marker s).1 ≠ []
    · rw [if_pos hp, if_pos hp]
    · rw [if_neg hp, if_neg hp]
      rcases hfs : findSub NEWLINE_MARKER s with _ | idx
      · rfl
      · have hb := findSub_bound NEWLINE_MARKER s idx hfs
        simp only [NEWLINE_MARKER, List.length_cons, List.length_nil] at hb
        have hlen : (s.drop (idx + 1)).length < fuel := by
          simp only [List.length_drop]
          omega
        show (fnmGoFuel fuel (s.drop (idx + 1))).map
            (Option.map (fun q => (idx + 1 + q.1, q.2))) =
          some (Option.map (fun q => (idx + 1 + q.1, q.2)) (fnmGo (s.drop (idx + 1))))
        rw [ih _ hlen]
        rfl

theorem findNextMarkerFuel_eq (s : List Char) :
    findNextMarkerFuel s = find_next_marker s := by
  unfold findNextMarkerFuel find_next_marker
  rw [fnmGoFuel_adequate (s.length + 1) s (Nat.lt_succ_self _)]
  cases hq : fnmGo s with
  | none => rfl
  | some q => rfl

theorem fromLoop_nil_name (after : List Char) : fromLoop [] after = [] := by
  rw [fromLoop]
  simp

theorem fromLoop_cons {file_name : List Char} (after : List Char) (h : file_name ≠ []) :
    fromLoop file_name after =
      { name := file_name, content := fix_newline (find_next_marker after).1 } ::
        fromLoop (find_next_marker after).2.1 (find_next_marker after).2.2 := by
  conv_lhs => rw [fromLoop]
  rw [if_neg h]

theorem fnmGo_nil : fnmGo [] = none :=
  fnmGo_clean_none 0 [] le_rfl (by decide)

theorem fromLoopFuel_adequate :
    ∀ (fuel : Nat) (fn after : List Char), after.length + 2 ≤ fuel →
      fromLoopFuel fuel fn after = some (fromLoop fn after) := by
  intro fuel
  induction fuel with
  | zero =>
    intro fn after hle
    omega
  | succ fuel ih =>
    intro fn after hle
    by_cases hfn : fn = []
    · subst hfn
      simp only [fromLoopFuel, if_pos rfl, if_true]
      rw [fromLoop_nil_name]
    · simp only [fromLoopFuel, if_neg hfn]
      rw [findNextMarkerFuel_eq]
      rcases hq : fnmGo after with _ | ⟨i, n, a⟩
      · have hfnm : find_next_marker after = (after, [], []) := by
          unfold find_next_marker
          rw [hq]
        rw [hfnm, fromLoop_cons after hfn, hfnm]
        simp only
        rcases fuel with _ | fuel2
        · omega
        · simp only [fromLoopFuel, if_pos rfl, if_true]
          rw [fromLoop_nil_name]
          rfl
      · have hsh := fnmGo_shrink hq
        have hfnm : find_next_marker after = (after.take i, n, a) := by
          unfold find_next_marker
          rw [hq]
        rw [hfnm, fromLoop_cons after hfn, hfnm]
        simp only
        rw [ih n a (by omega)]
        rfl

theorem archiveFromFuel_adequate :
    ∀ (fuel : Nat) (s : List Char), s.length + 2 ≤ fuel →
      archiveFromFuel fuel s = some (archiveFrom s) := by
  intro fuel s hle
  unfold archiveFromFuel archiveFrom
  rw [findNextMarkerFuel_eq]
  rcases hq : fnmGo s with _ | ⟨i, n, a⟩
  · have hfnm : find_next_marker s = (s, [], []) := by
      unfold find_next_marker
      rw [hq]
    rw [hfnm]
    simp only
    rw [fromLoopFuel_adequate fuel [] [] (by simp; omega)]
    rfl
  · have hsh := fnmGo_shrink hq
    have hfnm : find_next_marker s = (s.take i, n, a) := by
      unfold find_next_marker
      rw [hq]
    rw [hfnm]
    simp only
    rw [fromLoopFuel_adequate fuel n a (by omega)]
    rfl

theorem archiveFrom_eq_of_fuel {s : List Char} {A : Archive} (fuel : Nat)
    (hle : s.length + 2 ≤ fuel) (h : archiveFromFuel fuel s = some A) :
    archiveFrom s = A := by
  have hadq := archiveFromFuel_adequate fuel s hle
  rw [h] at hadq
  exact (Option.some.inj hadq).symm

/-! ### fix_newline -/

theorem fix_newline_id {s : List Char} (h : s = [] ∨ s.getLast? = some '\n') :
    fix_newline s = s := by
  unfold fix_newline
  rcases h with rfl | h
  · simp
  · rw [if_neg]
    intro hc
    exact hc.2 h

theorem fix_newline_ends (s : List Char) :
    fix_newline s = [] ∨ (fix_newline s).getLast? = some '\n' := by
  unfold fix_newline
  split
  · right
    rw [List.getLast?_concat]
  · rename_i h
    by_cases hs : s = []
    · exact Or.inl hs
    · right
      by_contra hlast
      exact h ⟨hs, hlast⟩

/-! ### The builder loop on rendered archives -/

theorem roundtrip_loop :
    ∀ (fs : List (List Char × List Char)) (n cnt : List Char),
      '\n' ∉ n → trim n ≠ [] → (cnt = [] ∨ cnt.getLast? = some '\n') → noMarkerLine cnt →
      (∀ p ∈ fs, '\n' ∉ p.1 ∧ trim p.1 ≠ [] ∧ (p.2 = [] ∨ p.2.getLast? = some '\n') ∧
        noMarkerLine p.2) →
      fromLoop (trim n) (cnt ++ (fs.map renderFile).flatten) =
        { name := trim n, content := cnt } ::
          fs.map (fun p => { name := trim p.1, content := p.2 }) := by
  intro fs
  induction fs with
  | nil =>
    intro n cnt hn htn hcnl hcm _
    simp only [List.map_nil, List.flatten_nil, List.append_nil]
    rw [fromLoop_cons _ htn, fnm_clean_none hcm]
    simp only
    rw [fromLoop_nil_name, fix_newline_id hcnl]
  | cons p fs ih =>
    intro n cnt hn htn hcnl hcm hall
    obtain ⟨hp1, hp2, hp3, hp4⟩ := hall p (List.mem_cons_self _ _)
    have hrest : ∀ q ∈ fs, '\n' ∉ q.1 ∧ trim q.1 ≠ [] ∧
        (q.2 = [] ∨ q.2.getLast? = some '\n') ∧ noMarkerLine q.2 :=
      fun q hq => hall q (List.mem_cons_of_mem _ hq)
    have hassoc : cnt ++ ((p :: fs).map renderFile).flatten =
        cnt ++ (MARKER ++ p.1 ++ MARKER_END ++
          '\n' :: (p.2 ++ (fs.map renderFile).flatten)) := by
      simp only [List.map_cons, List.flatten_cons, renderFile, List.append_assoc,
        List.cons_append]
    rw [hassoc]
    have hplm := parse_render (p.2 ++ (fs.map renderFile).flatten) hp1 (trim_ne_nil_arg hp2)
    have hpt : (parse_leading_marker (MARKER ++ p.1 ++ MARKER_END ++
        '\n' :: (p.2 ++ (fs.map renderFile).flatten))).1 ≠ [] := by
      rw [hplm]
      exact hp2
    rw [fromLoop_cons _ htn, fnm_clean_concat hcm hcnl hpt]
    simp only
    rw [hplm, fix_newline_id hcnl]
    rw [ih p.1 p.2 hp1 hp2 hp3 hp4 hrest]
    simp

/-! ### Invariants of the builder loop -/

theorem plm_fst_trimmed {s n a : List Char} (h : parse_leading_marker s = (n, a)) :
    trim n = n := by
  have := plm_name_trimmed s
  rw [h] at this
  exact this

theorem fromLoop_invariants :
    ∀ (N : Nat) (fn after : List Char), after.length ≤ N →
      (fn ≠ [] → trim fn = fn) →
      ∀ f ∈ fromLoop fn after,
        (f.name ≠ [] ∧ trim f.name = f.name) ∧ (∃ raw, f.content = fix_newline raw) := by
  intro N
  induction N with
  | zero =>
    intro fn after hlen htr f hf
    have hnil : after = [] := List.length_eq_zero.mp (Nat.le_antisymm hlen (Nat.zero_le _))
    subst hnil
    by_cases hfn : fn = []
    · subst hfn
      rw [fromLoop_nil_name] at hf
      simp at hf
    · have hfnm : find_next_marker [] = ([], [], []) := by
        unfold find_next_marker
        rw [fnmGo_nil]
      rw [fromLoop_cons _ hfn, hfnm] at hf
      simp only at hf
      rcases List.mem_cons.mp hf with rfl | hf2
      · exact ⟨⟨hfn, htr hfn⟩, [], rfl⟩
      · rw [fromLoop_nil_name] at hf2
        simp at hf2
  | succ N ih =>
    intro fn after hlen htr f hf
    by_cases hfn : fn = []
    · subst hfn
      rw [fromLoop_nil_name] at hf
      simp at hf
    · rw [fromLoop_cons _ hfn] at hf
      rcases List.mem_cons.mp hf with rfl | hf2
      · exact ⟨⟨hfn, htr hfn⟩, _, rfl⟩
      · rcases hq : fnmGo after with _ | ⟨i, n, a⟩
        · have hfnm : find_next_marker after = (after, [], []) := by
            unfold find_next_marker
            rw [hq]
          rw [hfnm] at hf2
          simp only at hf2
          rw [fromLoop_nil_name] at hf2
          simp at hf2
        · have hsh := fnmGo_shrink hq
          have hfnm : find_next_marker after = (after.take i, n, a) := by
            unfold find_next_marker
            rw [hq]
          rw [hfnm] at hf2
          simp only at hf2
          have hparse := (fnmGo_parse hq).1
          have htrn : n ≠ [] → trim n = n := fun _ => plm_fst_trimmed hparse
          exact ih n a (by omega) htrn f hf2

theorem archiveFrom_files_invariants {s : List Char} {f : File}
    (hf : f ∈ (archiveFrom s).files) :
    (f.name ≠ [] ∧ trim f.name = f.name) ∧ (∃ raw, f.content = fix_newline raw) := by
  unfold archiveFrom at hf
  simp only at hf
  rcases hq : fnmGo s with _ | ⟨i, n, a⟩
  · have hfnm : find_next_marker s = (s, [], []) := by
      unfold find_next_marker
      rw [hq]
    rw [hfnm] at hf
    simp only at hf
    rw [fromLoop_nil_name] at hf
    simp at hf
  · have hsh := fnmGo_shrink hq
    have hfnm : find_next_marker s = (s.take i, n, a) := by
      unfold find_next_marker
      rw [hq]
    rw [hfnm] at hf
    simp only at hf
    have hparse := (fnmGo_parse hq).1
    exact fromLoop_invariants a.length n a le_rfl
      (fun _ => plm_fst_trimmed hparse) f hf

/-! ### Characterization of find? by name -/

theorem find?_name_first :
    ∀ (l : List File) (n : List Char) (f : File),
      l.find? (fun g => g.name == n) = some f →
      f.name = n ∧ ∃ l1 l2, l = l1 ++ f :: l2 ∧ ∀ g ∈ l1, g.name ≠ n := by
  intro l n
  induction l with
  | nil =>
    intro f h
    simp at h
  | cons g t ih =>
    intro f h
    by_cases hg : g.name = n
    · rw [List.find?_cons_of_pos _ (by simp [hg])] at h
      obtain rfl := Option.some.inj h
      exact ⟨hg, [], t, rfl, by simp⟩
    · rw [List.find?_cons_of_neg _ (by simp [hg])] at h
      obtain ⟨hf, l1, l2, rfl, hall⟩ := ih f h
      refine ⟨hf, g :: l1, l2, rfl, ?_⟩
      intro g2 hg2
      rcases List.mem_cons.mp hg2 with rfl | hm
      · exact hg
      · exact hall _ hm

theorem find?_name_none (l : List File) (n : List Char) :
    l.find? (fun g => g.name == n) = none ↔ ∀ f ∈ l, f.name ≠ n := by
  rw [List.find?_eq_none]
  constructor
  · intro h f hf
    have := h f hf
    simpa using this
  · intro h f hf
    simpa using h f hf

theorem contains_eq_isSome (a : Archive) (n : List Char) :
    a.contains n = (a.get n).isSome := by
  unfold Archive.contains Archive.get
  induction a.files with
  | nil => rfl
  | cons g t ih =>
    by_cases hg : (g.name == n) = true
    · simp [List.any_cons, hg, List.find?_cons_of_pos _ hg]
    · rw [List.any_cons, @List.find?_cons_of_neg File (fun f => f.name == n) g t hg, ← ih]
      rw [Bool.eq_false_iff.mpr hg]
      simp

theorem getLast?_take {l : List Char} {i : Nat} (h1 : 0 < i) (h2 : i ≤ l.length) :
    (l.take i).getLast? = l[i - 1]? := by
  rcases i with _ | k
  · omega
  · have hk : k < l.length := by omega
    have hget : l[k]? = some (l.get ⟨k, hk⟩) := by
      rw [List.getElem?_eq_getElem hk]
      rfl
    rw [List.take_succ, hget]
    simp only [Option.toList_some, List.getLast?_concat, Nat.add_sub_cancel]
    rw [hget]

/-! ### The claims -/

/-- Claim C1: parsing is total.  The scan loop of find_next_marker and the
builder loop of Archive::from terminate on every input: running the
fuel-bounded mirrors of the two loops with fuel proportional to the input
length never exhausts the fuel and reproduces the functions, and every
newline-marker index the scan loop feeds back into slicing is in bounds. -/
theorem claim_C1_parse_total :
    ∀ s : List Char,
      fnmGoFuel (s.length + 1) s = some (fnmGo s) ∧
      archiveFromFuel (s.length + 2) s = some (archiveFrom s) ∧
      (∀ idx, findSub NEWLINE_MARKER s = some idx →
        idx + NEWLINE_MARKER.length ≤ s.length) := by
  intro s
  exact ⟨fnmGoFuel_adequate (s.length + 1) s (Nat.lt_succ_self _),
    archiveFromFuel_adequate (s.length + 2) s le_rfl,
    fun idx h => findSub_bound NEWLINE_MARKER s idx h⟩

theorem claim_C1_parse_total_witness :
    fnmGoFuel (("a\n-- b --\nc".toList).length + 1) ("a\n-- b --\nc".toList) =
      some (fnmGo ("a\n-- b --\nc".toList)) ∧
    1 + NEWLINE_MARKER.length ≤ ("a\n-- b --\nc".toList).length := by
  refine ⟨(claim_C1_parse_total ("a\n-- b --\nc".toList)).1, ?_⟩
  exact (claim_C1_parse_total ("a\n-- b --\nc".toList)).2.2 1 (by decide)

/-- Claim C2: parsing the concrete reference input, with or without a final
trailing newline, yields the comment "comment1\ncomment2\n" and exactly the
five expected files in order. -/
theorem claim_C2_concrete :
    archiveFrom (String.toList "comment1\ncomment2\n-- file1 --\nFile 1 text.\n-- foo ---\nMore file 1 text.\n-- file 2 --\nFile 2 text.\n-- empty --\n-- empty filename line --\nsome content\n-- --\n-- noNL --\nhello world") =
      { comment := String.toList "comment1\ncomment2\n",
        files := [
          { name := String.toList "file1",
            content := String.toList "File 1 text.\n-- foo ---\nMore file 1 text.\n" },
          { name := String.toList "file 2", content := String.toList "File 2 text.\n" },
          { name := String.toList "empty", content := [] },
          { name := String.toList "empty filename line",
            content := String.toList "some content\n-- --\n" },
          { name := String.toList "noNL", content := String.toList "hello world\n" }] } ∧
    archiveFrom (String.toList "comment1\ncomment2\n-- file1 --\nFile 1 text.\n-- foo ---\nMore file 1 text.\n-- file 2 --\nFile 2 text.\n-- empty --\n-- empty filename line --\nsome content\n-- --\n-- noNL --\nhello world\n") =
      { comment := String.toList "comment1\ncomment2\n",
        files := [
          { name := String.toList "file1",
            content := String.toList "File 1 text.\n-- foo ---\nMore file 1 text.\n" },
          { name := String.toList "file 2", content := String.toList "File 2 text.\n" },
          { name := String.toList "empty", content := [] },
          { name := String.toList "empty filename line",
            content := String.toList "some content\n-- --\n" },
          { name := String.toList "noNL", content := String.toList "hello world\n" }] } := by
  constructor
  · exact archiveFrom_eq_of_fuel 400 (by decide) (by decide)
  · exact archiveFrom_eq_of_fuel 400 (by decide) (by decide)

/-- Claim C3 counterexample: the round trip fails as stated when a file's
content itself contains a marker line.  The archive with empty comment and the
single file ("a", "-- b --\n") renders to "-- a --\n-- b --\n", which parses
back to two files "a" and "b" with empty contents, not to the original. -/
theorem claim_C3_counterexample :
    render [] [("a".toList, "-- b --\n".toList)] = "-- a --\n-- b --\n".toList ∧
    archiveFrom (render [] [("a".toList, "-- b --\n".toList)]) =
      { comment := [], files := [{ name := "a".toList, content := [] },
        { name := "b".toList, content := [] }] } ∧
    archiveFrom (render [] [("a".toList, "-- b --\n".toList)]) ≠
      { comment := [],
        files := [{ name := "a".toList, content := "-- b --\n".toList }] } := by
  have h2 : archiveFrom (render [] [("a".toList, "-- b --\n".toList)]) =
      { comment := [], files := [{ name := "a".toList, content := [] },
        { name := "b".toList, content := [] }] } :=
    archiveFrom_eq_of_fuel 40 (by decide) (by decide)
  refine ⟨by decide, h2, ?_⟩
  rw [h2]
  decide

/-- Claim C3 (amended): the round trip holds with the additional hypotheses the
counterexample forces: no line of the comment or of any file's content may
itself be a scanner-accepted marker line, and every file name must trim to a
nonempty string (the scanner treats an empty trimmed name as its no-marker
sentinel).  Then rendering and reparsing reproduces the archive exactly, with
names trimmed. -/
theorem claim_C3_roundtrip :
    ∀ (C : List Char) (fs : List (List Char × List Char)),
      (C = [] ∨ C.getLast? = some '\n') → noMarkerLine C →
      (∀ p ∈ fs, '\n' ∉ p.1 ∧ trim p.1 ≠ [] ∧ (p.2 = [] ∨ p.2.getLast? = some '\n') ∧
        noMarkerLine p.2) →
      archiveFrom (render C fs) =
        { comment := C,
          files := fs.map (fun p => { name := trim p.1, content := p.2 }) } := by
  intro C fs hCnl hCnm hall
  unfold archiveFrom render
  cases fs with
  | nil =>
    simp only [List.map_nil, List.flatten_nil, List.append_nil]
    rw [fnm_clean_none hCnm]
    simp only
    rw [fromLoop_nil_name]
  | cons p fs2 =>
    obtain ⟨hp1, hp2, hp3, hp4⟩ := hall p (List.mem_cons_self _ _)
    have hrest : ∀ q ∈ fs2, '\n' ∉ q.1 ∧ trim q.1 ≠ [] ∧
        (q.2 = [] ∨ q.2.getLast? = some '\n') ∧ noMarkerLine q.2 :=
      fun q hq => hall q (List.mem_cons_of_mem _ hq)
    have hassoc : C ++ ((p :: fs2).map renderFile).flatten =
        C ++ (MARKER ++ p.1 ++ MARKER_END ++
          '\n' :: (p.2 ++ (fs2.map renderFile).flatten)) := by
      simp only [List.map_cons, List.flatten_cons, renderFile, List.append_assoc,
        List.cons_append]
    rw [hassoc]
    have hplm := parse_render (p.2 ++ (fs2.map renderFile).flatten) hp1 (trim_ne_nil_arg hp2)
    have hpt : (parse_leading_marker (MARKER ++ p.1 ++ MARKER_END ++
        '\n' :: (p.2 ++ (fs2.map renderFile).flatten))).1 ≠ [] := by
      rw [hplm]
      exact hp2
    rw [fnm_clean_concat hCnm hCnl hpt]
    simp only
    rw [hplm, roundtrip_loop fs2 p.1 p.2 hp1 hp2 hp3 hp4 hrest]
    simp

theorem claim_C3_roundtrip_witness :
    archiveFrom (render ("c\n".toList) [("a".toList, "x\n".toList), ("  b ".toList, [])]) =
      { comment := "c\n".toList,
        files := [{ name := "a".toList, content := "x\n".toList },
          { name := "b".toList, content := [] }] } := by
  rw [claim_C3_roundtrip ("c\n".toList) [("a".toList, "x\n".toList), ("  b ".toList, [])]
    (by decide) (by decide) (by decide)]
  decide

/-- Claim C4 counterexample: on the input "a\n-- b --\n" the scanner's `before`
is "a\n" — it includes the newline that precedes the marker line — not the "a"
the claim predicts, and the archive's comment is that same "a\n". -/
theorem claim_C4_counterexample :
    archiveFrom ("a\n-- b --\n".toList) =
      { comment := "a\n".toList, files := [{ name := "b".toList, content := [] }] } ∧
    find_next_marker ("a\n-- b --\n".toList) = ("a\n".toList, "b".toList, []) ∧
    "a\n".toList ≠ "a".toList := by
  refine ⟨archiveFrom_eq_of_fuel 40 (by decide) (by decide), ?_, by decide⟩
  rw [← findNextMarkerFuel_eq]
  decide

/-- Claim C4 (amended): when find_next_marker succeeds, `before` is a prefix of
the input that, when the marker is not at offset 0, extends up to AND
INCLUDING the newline that precedes the marker line (so `before` ends with
that newline); the builder uses this `before` verbatim as the archive's
comment, with no newline normalization. -/
theorem claim_C4_before_newline :
    ∀ (s b n a : List Char), find_next_marker s = (b, n, a) → n ≠ [] →
      (archiveFrom s).comment = b ∧
      ∃ i, b = s.take i ∧
        (i = 0 ∨ (0 < i ∧ s[i - 1]? = some '\n' ∧ b.getLast? = some '\n')) := by
  intro s b n a h hn
  rcases hq : fnmGo s with _ | ⟨i, n1, a1⟩
  · unfold find_next_marker at h
    rw [hq] at h
    simp only [Prod.mk.injEq] at h
    exact absurd h.2.1.symm hn
  · have hfnm : find_next_marker s = (s.take i, n1, a1) := by
      unfold find_next_marker
      rw [hq]
    rw [hfnm] at h
    simp only [Prod.mk.injEq] at h
    obtain ⟨rfl, rfl, rfl⟩ := h
    constructor
    · unfold archiveFrom
      rw [hfnm]
    · refine ⟨i, rfl, ?_⟩
      rcases Nat.eq_zero_or_pos i with rfl | hi1
      · exact Or.inl rfl
      · right
        rcases (fnmGo_parse hq).2 with h0 | hnl
        · omega
        · have hilen : i ≤ s.length := by
            have : i - 1 < s.length := by
              by_contra hge
              rw [List.getElem?_eq_none (by omega)] at hnl
              cases hnl
            omega
          exact ⟨hi1, hnl, by rw [getLast?_take hi1 hilen]; exact hnl⟩

theorem claim_C4_before_newline_witness :
    (archiveFrom ("a\n-- b --\n".toList)).comment = "a\n".toList ∧
    ∃ i, ("a\n".toList : List Char) = ("a\n-- b --\n".toList).take i ∧
      (i = 0 ∨ (0 < i ∧ ("a\n-- b --\n".toList)[i - 1]? = some '\n' ∧
        ("a\n".toList).getLast? = some '\n')) := by
  have hfnm : find_next_marker ("a\n-- b --\n".toList) = ("a\n".toList, "b".toList, []) := by
    rw [← findNextMarkerFuel_eq]
    decide
  exact claim_C4_before_newline ("a\n-- b --\n".toList) ("a\n".toList) ("b".toList) []
    hfnm (by decide)

/-- Claim C5 counterexample: inputs containing a marker-syntax line whose
trimmed name is empty ("--   --", and the claim's own example "-- --") yield
an archive with zero files and the whole input as the comment: the line does
NOT terminate the comment and does NOT start a file named "". -/
theorem claim_C5_counterexample :
    archiveFrom ("a\n--   --\nb".toList) =
      { comment := "a\n--   --\nb".toList, files := [] } ∧
    archiveFrom ("a\n-- --\nb".toList) =
      { comment := "a\n-- --\nb".toList, files := [] } :=
  ⟨archiveFrom_eq_of_fuel 40 (by decide) (by decide),
    archiveFrom_eq_of_fuel 40 (by decide) (by decide)⟩

/-- Claim C5 (amended): a marker-syntax line whose enclosed trimmed text is
empty is NOT treated as a valid marker.  parse_leading_marker returns the
empty name on any such line, and the empty name is precisely the scanner's
no-marker sentinel: whenever find_next_marker reports an empty name it reports
no marker at all, returning the whole input as `before`; such lines therefore
remain ordinary content and no file is ever started by them. -/
theorem claim_C5_empty_name :
    ∀ (m rest : List Char), (∀ x ∈ m, rustWhitespace x = true) → '\n' ∉ m →
      (parse_leading_marker (MARKER ++ m ++ MARKER_END ++ '\n' :: rest)).1 = [] ∧
      (∀ s b n a, find_next_marker s = (b, n, a) → n = [] → b = s ∧ a = []) := by
  intro m rest hws hnl
  constructor
  · by_cases hm : m = []
    · subst hm
      rw [parse_render_empty]
    · rw [parse_render rest hnl hm]
      exact trim_eq_nil_of_all hws
  · intro s b n a h hn
    rcases hq : fnmGo s with _ | ⟨i, n1, a1⟩
    · unfold find_next_marker at h
      rw [hq] at h
      simp only [Prod.mk.injEq] at h
      exact ⟨h.1.symm, h.2.2.symm⟩
    · exfalso
      unfold find_next_marker at h
      rw [hq] at h
      simp only [Prod.mk.injEq] at h
      exact (fnmGo_shrink hq).1 (h.2.1.trans hn)

theorem claim_C5_empty_name_witness :
    (parse_leading_marker (MARKER ++ " ".toList ++ MARKER_END ++ '\n' :: "x".toList)).1 =
      [] ∧
    ("q".toList = ("q".toList : List Char) ∧ ([] : List Char) = []) := by
  have h := claim_C5_empty_name (" ".toList) ("x".toList) (by decide) (by decide)
  refine ⟨h.1, ?_⟩
  have hfnm : find_next_marker ("q".toList) = ("q".toList, [], []) := by
    rw [← findNextMarkerFuel_eq]
    decide
  exact h.2 ("q".toList) ("q".toList) [] [] hfnm rfl

/-- Claim C6: trailing-newline normalization.  fix_newline appends exactly one
newline to a nonempty raw section that does not end in one and leaves any
other raw section (including the empty one) unchanged; the builder loop
computes every emitted file's content as fix_newline of the raw section text
returned by find_next_marker (the text between the file's marker line and the
next marker or end of input); consequently every parsed file's content is
either empty or ends with a newline. -/
theorem claim_C6_newline_normalization :
    (∀ raw : List Char,
      ((raw ≠ [] ∧ raw.getLast? ≠ some '\n') → fix_newline raw = raw ++ ['\n']) ∧
      ((raw = [] ∨ raw.getLast? = some '\n') → fix_newline raw = raw)) ∧
    (∀ fn after : List Char, fn ≠ [] →
      fromLoop fn after =
        { name := fn, content := fix_newline (find_next_marker after).1 } ::
          fromLoop (find_next_marker after).2.1 (find_next_marker after).2.2) ∧
    (∀ s : List Char, ∀ f ∈ (archiveFrom s).files,
      f.content = [] ∨ f.content.getLast? = some '\n') := by
  refine ⟨?_, ?_, ?_⟩
  · intro raw
    constructor
    · intro h
      unfold fix_newline
      rw [if_pos h]
    · exact fix_newline_id
  · intro fn after h
    exact fromLoop_cons after h
  · intro s f hf
    obtain ⟨_, raw, hraw⟩ := archiveFrom_files_invariants hf
    rw [hraw]
    exact fix_newline_ends raw

theorem claim_C6_newline_normalization_witness :
    fix_newline ("x".toList) = "x\n".toList ∧
    fix_newline ("y\n".toList) = "y\n".toList ∧
    fix_newline ([] : List Char) = [] ∧
    fromLoop ("a".toList) [] =
      { name := "a".toList, content := fix_newline (find_next_marker []).1 } ::
        fromLoop (find_next_marker []).2.1 (find_next_marker []).2.2 ∧
    ((⟨"a".toList, "x\n".toList⟩ : File).content = [] ∨
      ((⟨"a".toList, "x\n".toList⟩ : File).content).getLast? = some '\n') := by
  have h := claim_C6_newline_normalization
  refine ⟨?_, (h.1 ("y\n".toList)).2 (by decide), (h.1 []).2 (by decide),
    h.2.1 ("a".toList) [] (by decide), ?_⟩
  · rw [(h.1 ("x".toList)).1 (by decide)]
    decide
  · have harch : archiveFrom ("-- a --\nx".toList) =
        { comment := [], files := [⟨"a".toList, "x\n".toList⟩] } :=
      archiveFrom_eq_of_fuel 40 (by decide) (by decide)
    have hmem : (⟨"a".toList, "x\n".toList⟩ : File) ∈
        (archiveFrom ("-- a --\nx".toList)).files := by
      rw [harch]
      exact List.mem_singleton.mpr rfl
    exact h.2.2 ("-- a --\nx".toList) _ hmem

/-- Claim C7: for every input in which no line begins with the marker-open
sequence "-- ", parsing yields zero files and the comment is the whole input
verbatim. -/
theorem claim_C7_no_marker :
    ∀ s : List Char, (∀ l ∈ linesOf s, MARKER.isPrefixOf l = false) →
      archiveFrom s = { comment := s, files := [] } := by
  intro s h
  have hnm : noMarkerLine s := by
    intro l hl hml
    have hpf := hml.1.1
    rw [h l hl] at hpf
    exact Bool.false_ne_true hpf
  unfold archiveFrom
  rw [fnm_clean_none hnm]
  simp only
  rw [fromLoop_nil_name]

theorem claim_C7_no_marker_witness :
    archiveFrom ("hello\nworld".toList) =
      { comment := "hello\nworld".toList, files := [] } :=
  claim_C7_no_marker ("hello\nworld".toList) (by decide)

/-- Claim C8: lookup coherence.  get returns the first file whose name equals
the query by exact equality (none when no file matches), contains is true
exactly when get succeeds, and the Index operation (whose panic is modelled as
none) fails exactly when get is none and otherwise returns the same file. -/
theorem claim_C8_lookup_coherence :
    ∀ (a : Archive) (n : List Char),
      (a.get n = none ↔ ∀ f ∈ a.files, f.name ≠ n) ∧
      (∀ f, a.get n = some f →
        f.name = n ∧ ∃ l1 l2, a.files = l1 ++ f :: l2 ∧ ∀ g ∈ l1, g.name ≠ n) ∧
      (a.contains n = (a.get n).isSome) ∧
      (a.indexGet n = a.get n) := by
  intro a n
  refine ⟨find?_name_none a.files n, fun f h => find?_name_first a.files n f h,
    contains_eq_isSome a n, ?_⟩
  unfold Archive.indexGet Archive.get
  cases h : a.files.find? (fun f => f.name == n) <;> rfl

theorem claim_C8_lookup_coherence_witness :
    (Archive.contains { comment := [], files := [⟨"a".toList, "x".toList⟩, ⟨"a".toList, "y".toList⟩] } ("a".toList) =
      (Archive.get { comment := [], files := [⟨"a".toList, "x".toList⟩, ⟨"a".toList, "y".toList⟩] } ("a".toList)).isSome) ∧
    (⟨"a".toList, "x".toList⟩ : File).name = "a".toList ∧
    ∃ l1 l2,
      [(⟨"a".toList, "x".toList⟩ : File), ⟨"a".toList, "y".toList⟩] =
        l1 ++ (⟨"a".toList, "x".toList⟩ : File) :: l2 ∧
      ∀ g ∈ l1, g.name ≠ "a".toList := by
  have h := claim_C8_lookup_coherence
    ⟨[], [⟨"a".toList, "x".toList⟩, ⟨"a".toList, "y".toList⟩]⟩ ("a".toList)
  refine ⟨h.2.2.1, ?_⟩
  have h2 := h.2.1 ⟨"a".toList, "x".toList⟩ rfl
  exact ⟨h2.1, h2.2⟩

/-- Claim C9: Archive::read reads the whole byte source before parsing — a
failed read (or decode) returns the underlying error unchanged and no archive,
a successful read returns Ok of parsing the fully read text; Archive::from_file
likewise surfaces the open error and otherwise defers to read. -/
theorem claim_C9_read_errors :
    ∀ r : Except IoError (List Char),
      (∀ e, r = .error e → Archive.read r = .error e) ∧
      (∀ s, r = .ok s → Archive.read r = .ok (archiveFrom s)) ∧
      (∀ e, Archive.from_file (.error e) = .error e) ∧
      (∀ rd, Archive.from_file (.ok rd) = Archive.read rd) := by
  intro r
  refine ⟨?_, ?_, fun e => rfl, fun rd => rfl⟩
  · intro e h
    subst h
    rfl
  · intro s h
    subst h
    rfl

theorem claim_C9_read_errors_witness :
    Archive.read (.error ⟨7⟩) = .error (⟨7⟩ : IoError) ∧
    Archive.read (.ok []) = .ok (archiveFrom []) ∧
    Archive.from_file (.error ⟨7⟩) = .error (⟨7⟩ : IoError) ∧
    Archive.from_file (.ok (.ok [])) = Archive.read (.ok []) := by
  have h1 := claim_C9_read_errors (Except.error ⟨7⟩)
  have h2 := claim_C9_read_errors (Except.ok ([] : List Char))
  exact ⟨h1.1 ⟨7⟩ rfl, h2.2.1 [] rfl, h1.2.2.1 ⟨7⟩, h1.2.2.2 (.ok [])⟩

/-- Claim C10: implicit name invariant — every file in a parsed archive has a
nonempty name that carries no leading or trailing whitespace (it equals its
own trim), because the builder only emits a file while the scanner returned a
nonempty trimmed name. -/
theorem claim_C10_name_invariant :
    ∀ s : List Char, ∀ f ∈ (archiveFrom s).files,
      f.name ≠ [] ∧ trim f.name = f.name := by
  intro s f hf
  exact (archiveFrom_files_invariants hf).1

theorem claim_C10_name_invariant_witness :
    ("a".toList : List Char) ≠ [] ∧ trim ("a".toList) = "a".toList := by
  have harch : archiveFrom ("-- a --\nx".toList) =
      { comment := [], files := [⟨"a".toList, "x\n".toList⟩] } :=
    archiveFrom_eq_of_fuel 40 (by decide) (by decide)
  have hmem : (⟨"a".toList, "x\n".toList⟩ : File) ∈
      (archiveFrom ("-- a --\nx".toList)).files := by
    rw [harch]
    exact List.mem_singleton.mpr rfl
  exact claim_C10_name_invariant ("-- a --\nx".toList) _ hmem

end Txtar
